import Mathlib

/-!
Shallow embedding of the core of the `feature_store_api` package
(registry, offline reader, online cache, ingestion, materialization),
translated from `src/feature_store_api/feature_store/*.py`, together
with theorems settling the specification claims about it.

Python dictionaries are modelled as association lists (first binding
wins on lookup; insertion overwrites in place), Python values as the
tagged type `PyVal`, and the two online backends (Redis and in-memory)
as explicit state-passing functions over `Store`.
-/

/-- Tagged Python value as it flows through the feature store:
`vNone` is Python `None`; `vInt` an `int`; `vFloat` a `float`
identified by its deterministic `repr`/`str` form (Python prints the
shortest round-tripping decimal, e.g. `3.0`); `vStr` a `str`;
`vBool` a `bool`; `vDt` a `datetime` identified by its instant. -/
inductive PyVal where
  | vNone : PyVal
  | vInt : Int → PyVal
  | vFloat : String → PyVal
  | vStr : String → PyVal
  | vBool : Bool → PyVal
  | vDt : Int → PyVal
deriving DecidableEq, Repr

/-- Python `str()` of a value, as used by the online store encoding. -/
def pyStr : PyVal → String
  | .vNone => "None"
  | .vInt i => toString i
  | .vFloat r => r
  | .vStr s => s
  | .vBool b => if b then "True" else "False"
  | .vDt t => "datetime:" ++ toString t

/-- `models.Entity`. -/
structure Entity where
  name : String
  value_type : String
deriving DecidableEq, Repr

/-- `models.Feature`. -/
structure Feature where
  name : String
  value_type : String
deriving DecidableEq, Repr

/-- `models.OfflineSource`. -/
structure OfflineSource where
  table : String
  timestamp_column : String
  entity_column : String
deriving DecidableEq, Repr

/-- `models.FeatureView`. -/
structure FeatureView where
  name : String
  entity : Entity
  features : List Feature
  offline : OfflineSource
  ttl_seconds : Int
deriving DecidableEq, Repr

/-- Association-list lookup: Python `dict.get` / first binding wins. -/
def alook {α : Type} (l : List (String × α)) (k : String) : Option α :=
  match l with
  | [] => none
  | (k2, v) :: rest => if k2 = k then some v else alook rest k

/-- Association-list update: Python `d[k] = v` — overwrite the first
binding of `k` in place, or append a fresh binding at the end. -/
def aset {α : Type} (l : List (String × α)) (k : String) (v : α) : List (String × α) :=
  match l with
  | [] => [(k, v)]
  | (k2, v2) :: rest => if k2 = k then (k, v) :: rest else (k2, v2) :: aset rest k v

/-- A row of a table, or a Python row dict: column name to value. -/
abbrev PayRow := List (String × PyVal)

/-- A stored hash at one cache key: field name to string value. -/
abbrev Hash := List (String × String)

/-- The whole key-value backend state: cache key to hash. -/
abbrev Store := List (String × Hash)

/-- `OnlineStore._key`: `f"fv:{fv.name}:entity:{entity_id}"`. -/
def online_key (fv : FeatureView) (entity_id : String) : String :=
  "fv:" ++ fv.name ++ ":entity:" ++ entity_id

/-- The dict comprehension shared by both backends'
`write_entity_features`: drop `None` values, stringify the rest. -/
def encodeFeatures (features : List (String × PyVal)) : Hash :=
  (features.filter (fun kv => kv.2 != PyVal.vNone)).map (fun kv => (kv.1, pyStr kv.2))

/-- `MemoryOnlineStore.write_entity_features`: `self._store[key] = {...}`. -/
def mem_write_entity_features (st : Store) (fv : FeatureView) (entity_id : String)
    (features : List (String × PyVal)) : Store :=
  aset st (online_key fv entity_id) (encodeFeatures features)

/-- `MemoryOnlineStore.get_entity_features`: `self._store.get(key)`. -/
def mem_get_entity_features (st : Store) (fv : FeatureView) (entity_id : String) :
    Option Hash :=
  alook st (online_key fv entity_id)

/-- Redis `HSET key mapping`: set each given field on the hash,
leaving the other fields untouched. -/
def hsetFields (h : Hash) (m : Hash) : Hash :=
  m.foldl (fun acc kv => aset acc kv.1 kv.2) h

/-- The hash currently stored at a Redis key (a missing key is the
empty hash, as Redis never distinguishes the two). -/
def redisHash (st : Store) (key : String) : Hash :=
  (alook st key).getD []

/-- `RedisOnlineStore.write_entity_features`:
`client().hset(key, mapping={k: str(v) ... if v is not None})`. -/
def redis_write_entity_features (st : Store) (fv : FeatureView) (entity_id : String)
    (features : List (String × PyVal)) : Store :=
  let key := online_key fv entity_id
  aset st key (hsetFields (redisHash st key) (encodeFeatures features))

/-- `RedisOnlineStore.get_entity_features`: `data = hgetall(key);
return data or None` — an empty hash reads back as absent. -/
def redis_get_entity_features (st : Store) (fv : FeatureView) (entity_id : String) :
    Option Hash :=
  let h := redisHash st (online_key fv entity_id)
  if h = [] then none else some h

/-! ## Ingestion (`ingest.py`) -/

/-- `_parse_ts`: a `datetime` passes through; a string is parsed as
ISO-8601 after replacing a trailing `Z` with `+00:00` (raising on a
malformed string, modelled by `none`); anything else passes through.
The stdlib parser `datetime.fromisoformat` is abstracted as the
function argument `fromIso`. -/
def parse_ts (fromIso : String → Option Int) : PyVal → Option PyVal
  | .vDt t => some (.vDt t)
  | .vStr s => (fromIso (s.replace "Z" "+00:00")).map .vDt
  | v => some v

/-- The `expected` column list of `ingest_rows`:
`[entity_col, ts_col] + feature_cols`. -/
def expectedCols (fv : FeatureView) : List String :=
  [fv.offline.entity_column, fv.offline.timestamp_column] ++ fv.features.map Feature.name

/-- One loop iteration of `ingest_rows`:
`payload = {c: r.get(c) for c in expected}` followed by
`payload[ts_col] = _parse_ts(payload[ts_col])` and the `INSERT`
(whose constraint check is abstracted as `constraintOk`). `none`
models the raised exception that aborts the transaction. -/
def ingestRow (fromIso : String → Option Int) (constraintOk : PayRow → Bool)
    (fv : FeatureView) (r : PayRow) : Option PayRow :=
  let tc := fv.offline.timestamp_column
  let payload0 := (expectedCols fv).foldl (fun d c => aset d c ((alook r c).getD .vNone)) []
  match parse_ts fromIso ((alook payload0 tc).getD .vNone) with
  | none => none
  | some t =>
    let payload := aset payload0 tc t
    if constraintOk payload then some payload else none

/-- `ingest_rows`: all inserts run inside one `engine().begin()`
transaction, so an exception on any row rolls the whole batch back.
Returns the table after the call together with the call's outcome. -/
def ingest_rows (fromIso : String → Option Int) (constraintOk : PayRow → Bool)
    (fv : FeatureView) (table : List PayRow) (rows : List PayRow) :
    List PayRow × Except String Nat :=
  match rows.mapM (ingestRow fromIso constraintOk fv) with
  | none => (table, .error "ingest aborted")
  | some payloads => (table ++ payloads, .ok payloads.length)

/-! ## Offline reader (`offline.py`) -/

/-- Value of a column in a row (`SQL NULL` for a missing column). -/
def colVal (r : PayRow) (c : String) : PyVal :=
  (alook r c).getD .vNone

/-- The instant of a row's timestamp column, used by the
`ORDER BY ts DESC` of both dialect branches. Ingested timestamps are
`vDt` values (integers are kept as instants too); the reader is only
ever run over such tables. -/
def rowTs (fv : FeatureView) (r : PayRow) : Int :=
  match colVal r fv.offline.timestamp_column with
  | .vDt t => t
  | .vInt i => i
  | _ => 0

/-- All rows of the table for one entity value
(the `PARTITION BY entity` / `DISTINCT ON (entity)` group). -/
def rowsFor (fv : FeatureView) (table : List PayRow) (e : PyVal) : List PayRow :=
  table.filter (fun r => colVal r fv.offline.entity_column == e)

/-- The row ranked `rn = 1` by
`ROW_NUMBER() OVER (... ORDER BY ts DESC)` within one partition: a row
of maximal timestamp. On an exact timestamp tie the engine's choice is
unspecified; the model keeps the earliest such row. -/
def argmaxTs (fv : FeatureView) : List PayRow → Option PayRow
  | [] => none
  | r :: rs =>
    match argmaxTs fv rs with
    | none => some r
    | some b => if rowTs fv b ≤ rowTs fv r then some r else some b

/-- The distinct entity values appearing in the table. -/
def entityVals (fv : FeatureView) (table : List PayRow) : List PyVal :=
  (table.map (fun r => colVal r fv.offline.entity_column)).dedup

/-- `latest_rows_by_entity`: one maximal-timestamp row per distinct
entity (`WHERE rn = 1`), then `LIMIT :limit` — the limit applies to
the already-deduplicated rows, i.e. to distinct entities. -/
def latest_rows_by_entity (fv : FeatureView) (table : List PayRow) (limit : Nat) :
    List PayRow :=
  ((entityVals fv table).filterMap (fun e => argmaxTs fv (rowsFor fv table e))).take limit

/-! ## Materialization (`materialize.py`) -/

/-- The per-row write issued by `materialize_feature_view`:
`entity_id = str(r[entity_col])`; the payload is the row minus the
entity and timestamp columns. -/
def matWrite (fv : FeatureView) (r : PayRow) : String × PayRow :=
  (pyStr (colVal r fv.offline.entity_column),
   r.filter (fun kv => kv.1 != fv.offline.entity_column && kv.1 != fv.offline.timestamp_column))

/-- `materialize_feature_view` against the in-memory backend:
fetch the latest rows, write each sequentially, count them. -/
def materialize_feature_view (fv : FeatureView) (table : List PayRow) (limit : Nat)
    (st : Store) : Nat × Store :=
  let rows := latest_rows_by_entity fv table limit
  (rows.length,
   rows.foldl (fun s r => mem_write_entity_features s fv (matWrite fv r).1 (matWrite fv r).2) st)

/-! ## Registry (`registry.py`) -/

/-- A raw `entity` mapping from the YAML source; a missing key makes
`Entity(**fv["entity"])` raise `TypeError`. -/
structure RawEntity where
  name : Option String
  value_type : Option String
deriving DecidableEq, Repr

/-- A raw `features` element from the YAML source. -/
structure RawFeature where
  name : Option String
  value_type : Option String
deriving DecidableEq, Repr

/-- A raw `offline` mapping from the YAML source. -/
structure RawOffline where
  table : Option String
  timestamp_column : Option String
  entity_column : Option String
deriving DecidableEq, Repr

/-- One raw `feature_views` entry from the YAML source. -/
structure RawFeatureView where
  name : Option String
  entity : Option RawEntity
  features : Option (List RawFeature)
  offline : Option RawOffline
  ttl_seconds : Option Int
deriving DecidableEq, Repr

/-- The `try` body of `Registry.reload` for one entry: construct
`Entity`, `OfflineSource`, every `Feature` and the `FeatureView`;
any missing required field raises (modelled by `none`);
`ttl_seconds` defaults to `0`. -/
def parseRawFeatureView (raw : RawFeatureView) : Option FeatureView := do
  let re ← raw.entity
  let en ← re.name
  let ev ← re.value_type
  let ro ← raw.offline
  let rt ← ro.table
  let rts ← ro.timestamp_column
  let rec' ← ro.entity_column
  let rfs ← raw.features
  let fs ← rfs.mapM (fun f => do
    let fn ← f.name
    let fvt ← f.value_type
    pure (Feature.mk fn fvt))
  let n ← raw.name
  pure { name := n
         entity := ⟨en, ev⟩
         features := fs
         offline := ⟨rt, rts, rec'⟩
         ttl_seconds := raw.ttl_seconds.getD 0 }

/-- The registry state: the `feature_views` list of the `Registry`. -/
structure Registry where
  feature_views : List FeatureView
deriving DecidableEq, Repr

/-- `Registry.reload`: a missing source file raises
`FileNotFoundError`; any entry whose construction raises aborts the
whole load with `ValueError`; only on full success is
`self.feature_views` assigned. -/
def Registry.reload (src : Option (List RawFeatureView)) : Except String Registry :=
  match src with
  | none => .error "Registry file not found"
  | some raws =>
    match raws.mapM parseRawFeatureView with
    | none => .error "Invalid feature_view"
    | some fvs => .ok ⟨fvs⟩

/-- The registry state visible after a `reload` call: the old snapshot
when the call raised, the freshly parsed catalog when it succeeded. -/
def reloadState (reg : Registry) (src : Option (List RawFeatureView)) : Registry :=
  match Registry.reload src with
  | .ok r => r
  | .error _ => reg

/-- The linear scan of `Registry.get_feature_view`. -/
def findFeatureView (name : String) : List FeatureView → Option FeatureView
  | [] => none
  | fv :: rest => if fv.name = name then some fv else findFeatureView name rest

/-- `Registry.get_feature_view`: first declared view with the name,
else `None`. -/
def Registry.get_feature_view (reg : Registry) (name : String) : Option FeatureView :=
  findFeatureView name reg.feature_views

/-! ## Association-list lemmas -/

/-- Keys of an association list, in order. -/
def keysOf {α : Type} (l : List (String × α)) : List String :=
  l.map Prod.fst

theorem alook_aset_self {α : Type} (l : List (String × α)) (k : String) (v : α) :
    alook (aset l k v) k = some v := by
  induction l with
  | nil => simp [aset, alook]
  | cons p rest ih =>
    obtain ⟨k2, v2⟩ := p
    by_cases h : k2 = k
    · simp [aset, h, alook]
    · simp [aset, h, alook, ih]

theorem alook_aset_ne {α : Type} (l : List (String × α)) (k k' : String) (v : α)
    (h : k' ≠ k) : alook (aset l k v) k' = alook l k' := by
  induction l with
  | nil => simp [aset, alook, Ne.symm h]
  | cons p rest ih =>
    obtain ⟨k2, v2⟩ := p
    by_cases h2 : k2 = k
    · subst h2
      simp [aset, alook, Ne.symm h]
    · simp [aset, h2, alook, ih]

theorem alook_eq_none_iff {α : Type} (l : List (String × α)) (k : String) :
    alook l k = none ↔ k ∉ keysOf l := by
  induction l with
  | nil => simp [alook, keysOf]
  | cons p rest ih =>
    obtain ⟨k2, v2⟩ := p
    by_cases h : k2 = k
    · subst h
      simp [alook, keysOf]
    · have h3 : ¬ (k = k2) := fun hh => h hh.symm
      simp [alook, h, keysOf, ih, h3]

theorem aset_ne_nil {α : Type} (l : List (String × α)) (k : String) (v : α) :
    aset l k v ≠ [] := by
  cases l with
  | nil => simp [aset]
  | cons p rest =>
    obtain ⟨k2, v2⟩ := p
    by_cases h : k2 = k <;> simp [aset, h]

theorem keys_aset {α : Type} (l : List (String × α)) (k : String) (v : α) :
    keysOf (aset l k v) = if k ∈ keysOf l then keysOf l else keysOf l ++ [k] := by
  induction l with
  | nil => simp [aset, keysOf]
  | cons p rest ih =>
    obtain ⟨k2, v2⟩ := p
    by_cases h : k2 = k
    · subst h
      simp [aset, keysOf]
    · have h2 : ¬ (k = k2) := fun hh => h hh.symm
      simp only [aset, if_neg h, keysOf, List.map_cons, List.mem_cons, h2, false_or]
      rw [show (aset rest k v).map Prod.fst = keysOf (aset rest k v) from rfl, ih]
      by_cases hm : k ∈ List.map Prod.fst rest <;> simp [hm, keysOf]

theorem mem_keys_aset_self {α : Type} (l : List (String × α)) (k : String) (v : α) :
    k ∈ keysOf (aset l k v) := by
  rw [keys_aset]
  by_cases hm : k ∈ keysOf l <;> simp [hm]

theorem mem_keys_aset_of_mem {α : Type} (l : List (String × α)) (k k' : String) (v : α)
    (h : k' ∈ keysOf l) : k' ∈ keysOf (aset l k v) := by
  rw [keys_aset]
  by_cases hm : k ∈ keysOf l <;> simp [hm, h]

theorem keys_aset_of_mem {α : Type} (l : List (String × α)) (k : String) (v : α)
    (h : k ∈ keysOf l) : keysOf (aset l k v) = keysOf l := by
  rw [keys_aset, if_pos h]

/-! ## Hash-merge and encoding lemmas -/

theorem alook_hsetFields_not_mem (m : Hash) : ∀ (h : Hash) (k : String),
    k ∉ keysOf m → alook (hsetFields h m) k = alook h k := by
  induction m with
  | nil => intro h k _; rfl
  | cons p rest ih =>
    intro h k hk
    obtain ⟨k1, v1⟩ := p
    simp only [keysOf, List.map_cons, List.mem_cons, not_or] at hk
    obtain ⟨hne, hrest⟩ := hk
    show alook (hsetFields (aset h k1 v1) rest) k = alook h k
    rw [ih (aset h k1 v1) k (by simpa [keysOf] using hrest)]
    exact alook_aset_ne h k1 k v1 hne

theorem hsetFields_eq_nil_iff (m : Hash) : ∀ h : Hash,
    hsetFields h m = [] ↔ h = [] ∧ m = [] := by
  induction m with
  | nil => intro h; simp [hsetFields]
  | cons p rest ih =>
    intro h
    show hsetFields (aset h p.1 p.2) rest = [] ↔ _
    rw [ih]
    simp [aset_ne_nil]

theorem keys_encode_subset (feats : List (String × PyVal)) (k : String)
    (h : k ∈ keysOf (encodeFeatures feats)) : k ∈ keysOf feats := by
  simp only [encodeFeatures, keysOf, List.map_map, List.mem_map] at h ⊢
  obtain ⟨kv, hmem, hk⟩ := h
  exact ⟨kv, (List.mem_filter.mp hmem).1, hk⟩

theorem alook_encode (feats : List (String × PyVal)) (k : String) (v : PyVal)
    (hnd : (keysOf feats).Nodup) (hmem : (k, v) ∈ feats) :
    alook (encodeFeatures feats) k = if v = PyVal.vNone then none else some (pyStr v) := by
  induction feats with
  | nil => simp at hmem
  | cons p rest ih =>
    obtain ⟨k1, v1⟩ := p
    simp only [keysOf, List.map_cons, List.nodup_cons] at hnd
    obtain ⟨hk1, hnd2⟩ := hnd
    rcases List.mem_cons.mp hmem with heq | hrest
    · rw [Prod.mk.injEq] at heq
      obtain ⟨hkk, hvv⟩ := heq
      subst hkk
      subst hvv
      by_cases hv : v = PyVal.vNone
      · subst hv
        rw [if_pos rfl]
        have hnone : alook (encodeFeatures rest) k = none :=
          (alook_eq_none_iff _ k).mpr
            (fun hm => hk1 (by simpa [keysOf] using keys_encode_subset rest k hm))
        simpa [encodeFeatures] using hnone
      · rw [if_neg hv]
        have hbne : (v != PyVal.vNone) = true := bne_iff_ne.mpr hv
        simp [encodeFeatures, List.filter_cons, hbne, alook]
    · have hkmem : k ∈ List.map Prod.fst rest := by
        exact List.mem_map.mpr ⟨(k, v), hrest, rfl⟩
      have hk1k : ¬ (k1 = k) := fun hh => hk1 (hh ▸ hkmem)
      have ihr := ih (by simpa [keysOf] using hnd2) hrest
      by_cases hv1 : v1 = PyVal.vNone
      · simp [encodeFeatures, hv1] at ihr ⊢
        exact ihr
      · simp [encodeFeatures, hv1, alook, hk1k] at ihr ⊢
        exact ihr

/-! ## Arg-max lemmas for the offline reader -/

theorem argmaxTs_eq_none_iff (fv : FeatureView) (l : List PayRow) :
    argmaxTs fv l = none ↔ l = [] := by
  cases l with
  | nil => simp [argmaxTs]
  | cons r rs =>
    cases h : argmaxTs fv rs with
    | none => simp [argmaxTs, h]
    | some b =>
      simp only [argmaxTs, h]
      split <;> simp

theorem argmaxTs_mem (fv : FeatureView) :
    ∀ (l : List PayRow) (b : PayRow), argmaxTs fv l = some b → b ∈ l := by
  intro l
  induction l with
  | nil => intro b hb; simp [argmaxTs] at hb
  | cons r rs ih =>
    intro b hb
    cases h : argmaxTs fv rs with
    | none =>
      simp only [argmaxTs, h, Option.some.injEq] at hb
      subst hb
      exact List.mem_cons_self _ _
    | some b0 =>
      simp only [argmaxTs, h] at hb
      by_cases hle : rowTs fv b0 ≤ rowTs fv r
      · rw [if_pos hle] at hb
        simp only [Option.some.injEq] at hb
        subst hb
        exact List.mem_cons_self _ _
      · rw [if_neg hle] at hb
        simp only [Option.some.injEq] at hb
        subst hb
        exact List.mem_cons_of_mem r (ih b0 h)

theorem argmaxTs_le (fv : FeatureView) :
    ∀ (l : List PayRow) (b : PayRow), argmaxTs fv l = some b →
      ∀ x ∈ l, rowTs fv x ≤ rowTs fv b := by
  intro l
  induction l with
  | nil => intro b hb; simp [argmaxTs] at hb
  | cons r rs ih =>
    intro b hb x hx
    cases h : argmaxTs fv rs with
    | none =>
      simp only [argmaxTs, h, Option.some.injEq] at hb
      subst hb
      have hrs : rs = [] := (argmaxTs_eq_none_iff fv rs).mp h
      subst hrs
      simp at hx
      subst hx
      exact le_refl _
    | some b0 =>
      simp only [argmaxTs, h] at hb
      by_cases hle : rowTs fv b0 ≤ rowTs fv r
      · rw [if_pos hle] at hb
        simp only [Option.some.injEq] at hb
        subst hb
        rcases List.mem_cons.mp hx with hxr | hxrs
        · subst hxr
          exact le_refl _
        · exact le_trans (ih b0 h x hxrs) hle
      · rw [if_neg hle] at hb
        simp only [Option.some.injEq] at hb
        subst hb
        rcases List.mem_cons.mp hx with hxr | hxrs
        · subst hxr
          exact le_of_not_le hle
        · exact ih b0 h x hxrs

/-! ## Fold and mapM lemmas -/

theorem filterMap_map_sublist (g : PayRow → PyVal) (f : PyVal → Option PayRow)
    (es : List PyVal) (H : ∀ e b, f e = some b → g b = e) :
    ((es.filterMap f).map g).Sublist es := by
  induction es with
  | nil => simp
  | cons e es ih =>
    cases hf : f e with
    | none =>
      rw [List.filterMap_cons, hf]
      exact ih.cons e
    | some b =>
      rw [List.filterMap_cons, hf, List.map_cons, H e b hf]
      exact ih.cons₂ e

theorem keys_foldl_aset_mem {β : Type} (kf : β → String) (vf : β → Hash) :
    ∀ (rows : List β) (s : Store) (k : String), k ∈ keysOf s →
      k ∈ keysOf (rows.foldl (fun st r => aset st (kf r) (vf r)) s) := by
  intro rows
  induction rows with
  | nil => intro s k hk; exact hk
  | cons r rest ih =>
    intro s k hk
    exact ih (aset s (kf r) (vf r)) k (mem_keys_aset_of_mem s (kf r) k (vf r) hk)

theorem keys_foldl_aset_written {β : Type} (kf : β → String) (vf : β → Hash) :
    ∀ (rows : List β) (s : Store) (r : β), r ∈ rows →
      kf r ∈ keysOf (rows.foldl (fun st r2 => aset st (kf r2) (vf r2)) s) := by
  intro rows
  induction rows with
  | nil => intro s r hr; simp at hr
  | cons r0 rest ih =>
    intro s r hr
    rcases List.mem_cons.mp hr with h | h
    · subst h
      exact keys_foldl_aset_mem kf vf rest (aset s (kf r) (vf r)) (kf r)
        (mem_keys_aset_self s (kf r) (vf r))
    · exact ih (aset s (kf r0) (vf r0)) r h

theorem keys_foldl_aset_stable {β : Type} (kf : β → String) (vf : β → Hash) :
    ∀ (rows : List β) (s : Store), (∀ r ∈ rows, kf r ∈ keysOf s) →
      keysOf (rows.foldl (fun st r => aset st (kf r) (vf r)) s) = keysOf s := by
  intro rows
  induction rows with
  | nil => intro s _; rfl
  | cons r0 rest ih =>
    intro s hall
    have h0 : kf r0 ∈ keysOf s := hall r0 (List.mem_cons_self _ _)
    have hs : keysOf (aset s (kf r0) (vf r0)) = keysOf s :=
      keys_aset_of_mem s (kf r0) (vf r0) h0
    have hrest : ∀ r ∈ rest, kf r ∈ keysOf (aset s (kf r0) (vf r0)) := by
      intro r hr
      rw [hs]
      exact hall r (List.mem_cons_of_mem r0 hr)
    calc keysOf (rest.foldl (fun st r => aset st (kf r) (vf r)) (aset s (kf r0) (vf r0)))
        = keysOf (aset s (kf r0) (vf r0)) := ih (aset s (kf r0) (vf r0)) hrest
      _ = keysOf s := hs

theorem mapM_option_length {α β : Type} (f : α → Option β) :
    ∀ (l : List α) (out : List β), l.mapM f = some out → out.length = l.length := by
  intro l
  induction l with
  | nil =>
    intro out h
    simp only [List.mapM_nil, pure, Option.some.injEq] at h
    simp [← h]
  | cons a rest ih =>
    intro out h
    rw [List.mapM_cons] at h
    cases hf : f a with
    | none => rw [hf] at h; simp at h
    | some b =>
      rw [hf] at h
      cases hr : rest.mapM f with
      | none => rw [hr] at h; simp at h
      | some out2 =>
        rw [hr] at h
        simp only [Option.bind_some, Option.pure_def, Option.bind_eq_bind,
          Option.some_bind, Option.some.injEq] at h
        rw [← h]
        simp [ih out2 hr]

theorem mapM_option_none {α β : Type} (f : α → Option β) :
    ∀ (l : List α) (x : α), x ∈ l → f x = none → l.mapM f = none := by
  intro l
  induction l with
  | nil => intro x hx _; simp at hx
  | cons a rest ih =>
    intro x hx hfx
    rw [List.mapM_cons]
    rcases List.mem_cons.mp hx with h | h
    · subst h
      rw [hfx]
      rfl
    · cases hf : f a with
      | none => rfl
      | some b =>
        rw [ih x h hfx]
        rfl

/-! ## Concrete fixtures (the end-to-end scenario of the test suite) -/

/-- The `user_features` view of `registry/feature_views.yaml`. -/
def fvUser : FeatureView :=
  { name := "user_features"
    entity := ⟨"user_id", "int"⟩
    features := [⟨"age", "int"⟩, ⟨"country", "string"⟩, ⟨"purchases_7d", "float"⟩]
    offline := ⟨"user_features", "event_ts", "user_id"⟩
    ttl_seconds := 0 }

/-- Historical row `(123, t1, age=28, country=FR, purchases_7d=1.0)`. -/
def rowA : PayRow :=
  [("user_id", .vInt 123), ("event_ts", .vDt 1), ("age", .vInt 28),
   ("country", .vStr "FR"), ("purchases_7d", .vFloat "1.0")]

/-- Historical row `(123, t2, age=29, country=FR, purchases_7d=3.0)`. -/
def rowB : PayRow :=
  [("user_id", .vInt 123), ("event_ts", .vDt 2), ("age", .vInt 29),
   ("country", .vStr "FR"), ("purchases_7d", .vFloat "3.0")]

/-- Historical row `(456, t2, age=41, country=DE, purchases_7d=0.0)`. -/
def rowC : PayRow :=
  [("user_id", .vInt 456), ("event_ts", .vDt 2), ("age", .vInt 41),
   ("country", .vStr "DE"), ("purchases_7d", .vFloat "0.0")]

/-- The three-row historical table of the test scenario. -/
def tableUser : List PayRow := [rowA, rowB, rowC]

/-! ## C1 — write semantics of the two online backends -/

/-- C1 counterexample: the claim says Cache Store write is a merge on
both backends. On the in-process backend it is a replace: after
writing `{age: 1}` and then `{country: "FR"}` under the same
`(view, entity)` key, the previously stored field `age` (first
conjunct shows it was stored with value `"1"`) is gone (second
conjunct), contradicting the claim at this concrete input. -/
theorem memory_write_drops_prev_fields_cex :
    alook ((mem_get_entity_features
        (mem_write_entity_features [] fvUser "77" [("age", PyVal.vInt 1)])
        fvUser "77").getD []) "age" = some "1" ∧
    alook ((mem_get_entity_features
        (mem_write_entity_features
          (mem_write_entity_features [] fvUser "77" [("age", PyVal.vInt 1)])
          fvUser "77" [("country", PyVal.vStr "FR")])
        fvUser "77").getD []) "age" = none := by
  decide

/-- C1 (amended): a Cache Store write is a merge on the networked
(Redis) backend — a field previously stored under the key and absent
from the written map keeps its previous value — while on the
in-process backend a write replaces the stored map with exactly the
encoding of this call's map. -/
theorem online_write_merge_redis_only :
    (∀ (st : Store) (fv : FeatureView) (e : String) (feats : List (String × PyVal))
       (k : String) (v : String),
      alook (redisHash st (online_key fv e)) k = some v →
      k ∉ keysOf feats →
      alook (redisHash (redis_write_entity_features st fv e feats) (online_key fv e)) k
        = some v) ∧
    (∀ (st : Store) (fv : FeatureView) (e : String) (feats : List (String × PyVal)),
      mem_get_entity_features (mem_write_entity_features st fv e feats) fv e
        = some (encodeFeatures feats)) := by
  constructor
  · intro st fv e feats k v hv hk
    have hkenc : k ∉ keysOf (encodeFeatures feats) :=
      fun hm => hk (keys_encode_subset feats k hm)
    show alook (redisHash (aset st (online_key fv e)
        (hsetFields (redisHash st (online_key fv e)) (encodeFeatures feats)))
        (online_key fv e)) k = some v
    simp only [redisHash, alook_aset_self, Option.getD_some]
    rw [alook_hsetFields_not_mem (encodeFeatures feats) _ k hkenc]
    exact hv
  · intro st fv e feats
    exact alook_aset_self st _ _

/-- C1 witness: the amended merge/replace behaviour at concrete
inputs — on Redis the `age` field survives a later `country`-only
write; on the in-process backend a write installs exactly its own
encoding. -/
theorem online_write_merge_redis_only_witness :
    alook (redisHash (redis_write_entity_features
        (redis_write_entity_features [] fvUser "9" [("age", PyVal.vInt 1)])
        fvUser "9" [("country", PyVal.vStr "FR")]) (online_key fvUser "9")) "age"
      = some "1" ∧
    mem_get_entity_features (mem_write_entity_features [] fvUser "9" [("age", PyVal.vInt 1)])
      fvUser "9" = some (encodeFeatures [("age", PyVal.vInt 1)]) := by
  constructor
  · exact online_write_merge_redis_only.1
      (redis_write_entity_features [] fvUser "9" [("age", PyVal.vInt 1)])
      fvUser "9" [("country", PyVal.vStr "FR")] "age" "1" (by decide) (by decide)
  · exact online_write_merge_redis_only.2 [] fvUser "9" [("age", PyVal.vInt 1)]

/-! ## C2 — atomicity of ingestion -/

/-- C2: an `ingest_rows` call with N rows either succeeds, appending
exactly N new rows to the historical table (it reports N and the new
table is the old one plus N inserted rows), or fails on some row
(malformed timestamp or constraint violation) and leaves the table
exactly as it was — for every parser, constraint, view, table and
batch. -/
theorem ingest_rows_atomic (fromIso : String → Option Int) (constraintOk : PayRow → Bool)
    (fv : FeatureView) (table : List PayRow) (rows : List PayRow) :
    (∀ n, (ingest_rows fromIso constraintOk fv table rows).2 = Except.ok n →
      n = rows.length ∧
      ∃ inserted, (ingest_rows fromIso constraintOk fv table rows).1 = table ++ inserted ∧
        inserted.length = rows.length) ∧
    (∀ e, (ingest_rows fromIso constraintOk fv table rows).2 = Except.error e →
      (ingest_rows fromIso constraintOk fv table rows).1 = table) := by
  cases hm : rows.mapM (ingestRow fromIso constraintOk fv) with
  | none =>
    constructor
    · intro n hn
      unfold ingest_rows at hn
      rw [hm] at hn
      simp at hn
    · intro e _
      unfold ingest_rows
      rw [hm]
  | some payloads =>
    have hlen : payloads.length = rows.length := mapM_option_length _ rows payloads hm
    constructor
    · intro n hn
      unfold ingest_rows at hn
      rw [hm] at hn
      simp only [Except.ok.injEq] at hn
      refine ⟨hn ▸ hlen, payloads, ?_, hlen⟩
      unfold ingest_rows
      rw [hm]
    · intro e he
      unfold ingest_rows at he
      rw [hm] at he
      simp at he

/-- A constraint check that accepts every insert, for witnesses. -/
def okAlways : PayRow → Bool := fun _ => true

/-- A constraint check that rejects every insert, for witnesses. -/
def okNever : PayRow → Bool := fun _ => false

/-- A stub ISO parser (never consulted by the witness rows, whose
timestamps are native datetime values). -/
def isoStub : String → Option Int := fun _ => none

/-- An input row for the ingest witness, timestamped with a native
datetime value. -/
def rowIn : PayRow := [("user_id", .vInt 1), ("event_ts", .vDt 10), ("age", .vInt 5)]

/-- C2 witness: a successful one-row ingest appends exactly one row;
an ingest whose insert violates a constraint leaves the table
exactly as it was. -/
theorem ingest_rows_atomic_witness :
    (1 = ([rowIn] : List PayRow).length ∧
      ∃ inserted, (ingest_rows isoStub okAlways fvUser [] [rowIn]).1 = [] ++ inserted ∧
        inserted.length = ([rowIn] : List PayRow).length) ∧
    (ingest_rows isoStub okNever fvUser [rowA] [rowIn]).1 = [rowA] := by
  constructor
  · exact (ingest_rows_atomic isoStub okAlways fvUser [] [rowIn]).1 1 (by rfl)
  · exact (ingest_rows_atomic isoStub okNever fvUser [rowA] [rowIn]).2 "ingest aborted"
      (by rfl)

/-! ## C3 — latest row per entity -/

/-- C3: for every view, table and positive limit, the reader returns
at most one row per distinct entity (the returned rows' entity values
are pairwise distinct), each returned row is a scanned row whose
timestamp is greater than or equal to that of every scanned row for
the same entity, and the result holds at most `limit` rows — one per
distinct entity, not per raw row. -/
theorem latest_rows_by_entity_spec (fv : FeatureView) (table : List PayRow) (limit : Nat)
    (_hpos : 0 < limit) :
    ((latest_rows_by_entity fv table limit).map
        (fun r => colVal r fv.offline.entity_column)).Nodup ∧
    (∀ r ∈ latest_rows_by_entity fv table limit, r ∈ table ∧
      ∀ r2 ∈ table,
        colVal r2 fv.offline.entity_column = colVal r fv.offline.entity_column →
        rowTs fv r2 ≤ rowTs fv r) ∧
    (latest_rows_by_entity fv table limit).length ≤ limit := by
  have Hf : ∀ (e : PyVal) (b : PayRow),
      argmaxTs fv (rowsFor fv table e) = some b →
      (fun r => colVal r fv.offline.entity_column) b = e := by
    intro e b hb
    have hmem := argmaxTs_mem fv (rowsFor fv table e) b hb
    have hpred := (List.mem_filter.mp hmem).2
    simpa using hpred
  refine ⟨?_, ?_, ?_⟩
  · have hsub := filterMap_map_sublist (fun r => colVal r fv.offline.entity_column)
      (fun e => argmaxTs fv (rowsFor fv table e)) (entityVals fv table) Hf
    have hnd := List.Sublist.nodup hsub (List.nodup_dedup _)
    rw [latest_rows_by_entity, List.map_take]
    exact List.Sublist.nodup (List.take_sublist _ _) hnd
  · intro r hr
    have hrL : r ∈ (entityVals fv table).filterMap
        (fun e => argmaxTs fv (rowsFor fv table e)) := List.take_subset _ _ hr
    obtain ⟨e, _, hfe⟩ := List.mem_filterMap.mp hrL
    have hre : colVal r fv.offline.entity_column = e := Hf e r hfe
    have hmem := argmaxTs_mem fv (rowsFor fv table e) r hfe
    refine ⟨(List.mem_filter.mp hmem).1, ?_⟩
    intro r2 hr2 hent
    have hr2mem : r2 ∈ rowsFor fv table e :=
      List.mem_filter.mpr ⟨hr2, by simp [hent, hre]⟩
    exact argmaxTs_le fv (rowsFor fv table e) r hfe r2 hr2mem
  · rw [latest_rows_by_entity]
    exact List.length_take_le _ _

/-- C3 witness: the test scenario's three-row table with limit 2
yields pairwise-distinct entities, per-entity maximal timestamps,
and at most two rows. -/
theorem latest_rows_by_entity_spec_witness :
    0 < 2 ∧
    (((latest_rows_by_entity fvUser tableUser 2).map
        (fun r => colVal r fvUser.offline.entity_column)).Nodup ∧
    (∀ r ∈ latest_rows_by_entity fvUser tableUser 2, r ∈ tableUser ∧
      ∀ r2 ∈ tableUser,
        colVal r2 fvUser.offline.entity_column = colVal r fvUser.offline.entity_column →
        rowTs fvUser r2 ≤ rowTs fvUser r) ∧
    (latest_rows_by_entity fvUser tableUser 2).length ≤ 2) :=
  ⟨by decide, latest_rows_by_entity_spec fvUser tableUser 2 (by decide)⟩

/-! ## C4 — duplicate feature-view names survive a load -/

/-- A well-formed raw entry named `dup`, used to exhibit duplicate
names in one snapshot. -/
def rawDup : RawFeatureView :=
  { name := some "dup"
    entity := some ⟨some "e", some "int"⟩
    features := some []
    offline := some ⟨some "t", some "ts", some "eid"⟩
    ttl_seconds := none }

/-- The parsed form of `rawDup`. -/
def fvDup : FeatureView :=
  { name := "dup"
    entity := ⟨"e", "int"⟩
    features := []
    offline := ⟨"t", "ts", "eid"⟩
    ttl_seconds := 0 }

/-- C4 counterexample: the claim says snapshot names are unique and a
source with two same-named views cannot yield a snapshot holding
both. Reloading a source with two views named `dup` succeeds and the
resulting snapshot holds both, so its name list is not duplicate-free. -/
theorem reload_duplicate_names_cex :
    ((reloadState ⟨[]⟩ (some [rawDup, rawDup])).feature_views.map FeatureView.name
      = ["dup", "dup"]) ∧
    ¬ ((reloadState ⟨[]⟩ (some [rawDup, rawDup])).feature_views.map FeatureView.name).Nodup := by
  decide

/-- C4 (amended): `reload` performs no name-uniqueness check — a
source whose entries all parse produces a snapshot listing exactly
the parsed views in declaration order, so two declared views sharing
one name both appear in the snapshot. -/
theorem reload_no_name_uniqueness (reg : Registry) (raw1 raw2 : RawFeatureView)
    (v1 v2 : FeatureView) (h1 : parseRawFeatureView raw1 = some v1)
    (h2 : parseRawFeatureView raw2 = some v2) (_hname : v1.name = v2.name) :
    (reloadState reg (some [raw1, raw2])).feature_views = [v1, v2] := by
  have hm : [raw1, raw2].mapM parseRawFeatureView = some [v1, v2] := by
    rw [List.mapM_cons, h1, List.mapM_cons, h2, List.mapM_nil]
    rfl
  have hr : Registry.reload (some [raw1, raw2]) = Except.ok ⟨[v1, v2]⟩ := by
    show (match [raw1, raw2].mapM parseRawFeatureView with
      | none => (Except.error "Invalid feature_view" : Except String Registry)
      | some fvs => Except.ok ⟨fvs⟩) = Except.ok ⟨[v1, v2]⟩
    rw [hm]
  unfold reloadState
  rw [hr]

/-- C4 witness: loading the two same-named `dup` entries produces the
two-element snapshot. -/
theorem reload_no_name_uniqueness_witness :
    (reloadState ⟨[]⟩ (some [rawDup, rawDup])).feature_views = [fvDup, fvDup] :=
  reload_no_name_uniqueness ⟨[]⟩ rawDup rawDup fvDup fvDup (by decide) (by decide) rfl

/-! ## C5 — failed reload leaves the catalog untouched -/

/-- C5: whenever the declarative source is absent, or any declared
entry fails to parse (a missing required field), `reload` raises and
the registry's visible catalog after the call is exactly the catalog
before the call — one invalid entry rejects the whole load. -/
theorem reload_failure_preserves_catalog (reg : Registry) (src : Option (List RawFeatureView))
    (h : src = none ∨
      ∃ raws, src = some raws ∧ ∃ raw ∈ raws, parseRawFeatureView raw = none) :
    (∃ e, Registry.reload src = Except.error e) ∧ reloadState reg src = reg := by
  rcases h with h | ⟨raws, hsrc, raw, hraw, hparse⟩
  · subst h
    exact ⟨⟨"Registry file not found", rfl⟩, rfl⟩
  · subst hsrc
    have hm : raws.mapM parseRawFeatureView = none :=
      mapM_option_none _ raws raw hraw hparse
    have hr : Registry.reload (some raws) = Except.error "Invalid feature_view" := by
      show (match raws.mapM parseRawFeatureView with
        | none => (Except.error "Invalid feature_view" : Except String Registry)
        | some fvs => Except.ok ⟨fvs⟩) = Except.error "Invalid feature_view"
      rw [hm]
    refine ⟨⟨"Invalid feature_view", hr⟩, ?_⟩
    unfold reloadState
    rw [hr]

/-- A raw entry missing its required `name` field. -/
def rawNoName : RawFeatureView :=
  { name := none
    entity := some ⟨some "e", some "int"⟩
    features := some []
    offline := some ⟨some "t", some "ts", some "eid"⟩
    ttl_seconds := none }

/-- C5 witness: reloading a source holding one entry without a name
fails and leaves a nonempty prior catalog intact. -/
theorem reload_failure_preserves_catalog_witness :
    (∃ e, Registry.reload (some [rawNoName]) = Except.error e) ∧
    reloadState ⟨[fvDup]⟩ (some [rawNoName]) = ⟨[fvDup]⟩ :=
  reload_failure_preserves_catalog ⟨[fvDup]⟩ (some [rawNoName])
    (Or.inr ⟨[rawNoName], rfl, rawNoName, by simp, by decide⟩)

/-! ## C6 — when a read is absent -/

/-- One recorded `write_entity_features` call. -/
structure WriteOp where
  fv : FeatureView
  entity_id : String
  features : List (String × PyVal)
deriving DecidableEq

/-- Replay a sequence of writes against the in-process backend. -/
def applyMemOps (st : Store) (ops : List WriteOp) : Store :=
  ops.foldl (fun s op => mem_write_entity_features s op.fv op.entity_id op.features) st

/-- Replay a sequence of writes against the Redis backend. -/
def applyRedisOps (st : Store) (ops : List WriteOp) : Store :=
  ops.foldl (fun s op => redis_write_entity_features s op.fv op.entity_id op.features) st

/-- C6 counterexample: the claim says every issued write — including
one whose feature map holds only null values — makes subsequent
reads non-absent on every backend. On the Redis backend a write of
`{age: None}` stores no field, and the read stays absent. -/
theorem redis_all_null_write_reads_absent_cex :
    redis_get_entity_features
      (redis_write_entity_features [] fvUser "5" [("age", PyVal.vNone)]) fvUser "5"
      = none := by
  decide

theorem mem_read_none_iff_gen :
    ∀ (ops : List WriteOp) (st : Store) (fv : FeatureView) (e : String),
      mem_get_entity_features (applyMemOps st ops) fv e = none ↔
        (mem_get_entity_features st fv e = none ∧
         ∀ op ∈ ops, online_key op.fv op.entity_id ≠ online_key fv e) := by
  intro ops
  induction ops with
  | nil =>
    intro st fv e
    simp [applyMemOps]
  | cons op rest ih =>
    intro st fv e
    show mem_get_entity_features
        (applyMemOps (mem_write_entity_features st op.fv op.entity_id op.features) rest)
        fv e = none ↔ _
    rw [ih]
    constructor
    · rintro ⟨hw, hrest⟩
      by_cases hkey : online_key op.fv op.entity_id = online_key fv e
      · exfalso
        unfold mem_get_entity_features mem_write_entity_features at hw
        rw [← hkey, alook_aset_self] at hw
        exact Option.some_ne_none _ hw
      · refine ⟨?_, ?_⟩
        · unfold mem_get_entity_features mem_write_entity_features at hw
          rw [alook_aset_ne st _ _ _ (Ne.symm hkey)] at hw
          exact hw
        · intro op2 hop2
          rcases List.mem_cons.mp hop2 with h | h
          · subst h
            exact hkey
          · exact hrest op2 h
    · rintro ⟨hst, hall⟩
      have hkey : online_key op.fv op.entity_id ≠ online_key fv e :=
        hall op (List.mem_cons_self _ _)
      refine ⟨?_, fun op2 h2 => hall op2 (List.mem_cons_of_mem _ h2)⟩
      unfold mem_get_entity_features mem_write_entity_features
      rw [alook_aset_ne st _ _ _ (Ne.symm hkey)]
      exact hst

theorem redis_get_eq_none_iff (st : Store) (fv : FeatureView) (e : String) :
    redis_get_entity_features st fv e = none ↔ redisHash st (online_key fv e) = [] := by
  unfold redis_get_entity_features
  by_cases h : redisHash st (online_key fv e) = [] <;> simp [h]

theorem redis_read_none_iff_gen :
    ∀ (ops : List WriteOp) (st : Store) (fv : FeatureView) (e : String),
      redis_get_entity_features (applyRedisOps st ops) fv e = none ↔
        (redis_get_entity_features st fv e = none ∧
         ∀ op ∈ ops, online_key op.fv op.entity_id = online_key fv e →
           encodeFeatures op.features = []) := by
  intro ops
  induction ops with
  | nil =>
    intro st fv e
    simp [applyRedisOps]
  | cons op rest ih =>
    intro st fv e
    show redis_get_entity_features
        (applyRedisOps (redis_write_entity_features st op.fv op.entity_id op.features) rest)
        fv e = none ↔ _
    rw [ih]
    have hwstep : redis_get_entity_features
        (redis_write_entity_features st op.fv op.entity_id op.features) fv e = none ↔
        (redis_get_entity_features st fv e = none ∧
         (online_key op.fv op.entity_id = online_key fv e →
           encodeFeatures op.features = [])) := by
      rw [redis_get_eq_none_iff, redis_get_eq_none_iff]
      by_cases hkey : online_key op.fv op.entity_id = online_key fv e
      · unfold redis_write_entity_features redisHash
        rw [← hkey, alook_aset_self, Option.getD_some]
        rw [show ((alook st (online_key op.fv op.entity_id)).getD [] : Hash)
            = redisHash st (online_key op.fv op.entity_id) from rfl]
        rw [hsetFields_eq_nil_iff]
        constructor
        · rintro ⟨h1, h2⟩
          exact ⟨h1, fun _ => h2⟩
        · rintro ⟨h1, h2⟩
          exact ⟨h1, h2 rfl⟩
      · unfold redis_write_entity_features redisHash
        rw [alook_aset_ne st _ _ _ (Ne.symm hkey)]
        constructor
        · intro h1
          exact ⟨h1, fun hk => absurd hk hkey⟩
        · rintro ⟨h1, _⟩
          exact h1
    rw [hwstep]
    constructor
    · rintro ⟨⟨h1, h2⟩, hrest⟩
      refine ⟨h1, ?_⟩
      intro op2 hop2
      rcases List.mem_cons.mp hop2 with h | h
      · subst h
        exact h2
      · exact hrest op2 h
    · rintro ⟨h1, hall⟩
      exact ⟨⟨h1, hall op (List.mem_cons_self _ _)⟩,
        fun op2 h2 => hall op2 (List.mem_cons_of_mem _ h2)⟩

/-- C6 (amended): starting from a cleared backend, on the in-process
backend a read is absent iff no write has ever targeted that exact
`(view, entity)` key — any write, even an all-null one, makes reads
non-absent. On the Redis backend a read is absent iff every write
that targeted the key carried only null values: an all-null write
leaves the read absent. -/
theorem online_read_absent_iff (ops : List WriteOp) (fv : FeatureView) (e : String) :
    (mem_get_entity_features (applyMemOps [] ops) fv e = none ↔
      ∀ op ∈ ops, online_key op.fv op.entity_id ≠ online_key fv e) ∧
    (redis_get_entity_features (applyRedisOps [] ops) fv e = none ↔
      ∀ op ∈ ops, online_key op.fv op.entity_id = online_key fv e →
        encodeFeatures op.features = []) := by
  constructor
  · rw [mem_read_none_iff_gen]
    have h0 : mem_get_entity_features [] fv e = none := rfl
    simp [h0]
  · rw [redis_read_none_iff_gen]
    have h0 : redis_get_entity_features [] fv e = none := rfl
    simp [h0]

/-- C6 witness: the amended absence conditions instantiated on a
one-write trace — an all-null write to `(user_features, "5")`. -/
theorem online_read_absent_iff_witness :
    (mem_get_entity_features
        (applyMemOps [] [⟨fvUser, "5", [("age", PyVal.vNone)]⟩]) fvUser "5" = none ↔
      ∀ op ∈ ([⟨fvUser, "5", [("age", PyVal.vNone)]⟩] : List WriteOp),
        online_key op.fv op.entity_id ≠ online_key fvUser "5") ∧
    (redis_get_entity_features
        (applyRedisOps [] [⟨fvUser, "5", [("age", PyVal.vNone)]⟩]) fvUser "5" = none ↔
      ∀ op ∈ ([⟨fvUser, "5", [("age", PyVal.vNone)]⟩] : List WriteOp),
        online_key op.fv op.entity_id = online_key fvUser "5" →
          encodeFeatures op.features = []) :=
  online_read_absent_iff [⟨fvUser, "5", [("age", PyVal.vNone)]⟩] fvUser "5"

/-! ## C7 — string encoding of cached values -/

/-- C7: a Cache Store write stores, for every feature map with
distinct feature names, each non-null value under its feature name as
its deterministic string form (`str(v)`), and omits every null-valued
feature from the stored map entirely; the in-process backend stores
exactly that encoding under the entity's key. -/
theorem cache_value_encoding (feats : List (String × PyVal)) (hnd : (keysOf feats).Nodup) :
    (∀ (st : Store) (fv : FeatureView) (e : String),
      mem_get_entity_features (mem_write_entity_features st fv e feats) fv e
        = some (encodeFeatures feats)) ∧
    (∀ k v, (k, v) ∈ feats → v ≠ PyVal.vNone →
      alook (encodeFeatures feats) k = some (pyStr v)) ∧
    (∀ k, (k, PyVal.vNone) ∈ feats → alook (encodeFeatures feats) k = none) := by
  refine ⟨?_, ?_, ?_⟩
  · intro st fv e
    exact alook_aset_self st _ _
  · intro k v hm hv
    rw [alook_encode feats k v hnd hm, if_neg hv]
  · intro k hm
    rw [alook_encode feats k _ hnd hm, if_pos rfl]

/-- A concrete feature map: an int, a float, and a null. -/
def featsEnc : List (String × PyVal) :=
  [("age", .vInt 29), ("purchases_7d", .vFloat "3.0"), ("country", .vNone)]

/-- C7 witness: integer `29` is stored as `"29"`, float `3.0` as
`"3.0"`, and the null-valued `country` is omitted; the in-process
backend stores exactly the encoded map. -/
theorem cache_value_encoding_witness :
    mem_get_entity_features (mem_write_entity_features [] fvUser "123" featsEnc) fvUser "123"
      = some (encodeFeatures featsEnc) ∧
    alook (encodeFeatures featsEnc) "age" = some "29" ∧
    alook (encodeFeatures featsEnc) "purchases_7d" = some "3.0" ∧
    alook (encodeFeatures featsEnc) "country" = none := by
  have h := cache_value_encoding featsEnc (by decide)
  refine ⟨h.1 [] fvUser "123", ?_, ?_, h.2.2 "country" (by decide)⟩
  · exact (h.2.1 "age" (PyVal.vInt 29) (by decide) (by decide)).trans (by decide)
  · exact (h.2.1 "purchases_7d" (PyVal.vFloat "3.0") (by decide) (by decide)).trans rfl

/-! ## C8 — materialization is repeatable -/

theorem mat_fold_keys (fv : FeatureView) (rows : List PayRow) (s : Store) :
    keysOf (rows.foldl
      (fun s2 r => mem_write_entity_features s2 fv (matWrite fv r).1 (matWrite fv r).2)
      (rows.foldl
        (fun s2 r => mem_write_entity_features s2 fv (matWrite fv r).1 (matWrite fv r).2) s))
    = keysOf (rows.foldl
      (fun s2 r => mem_write_entity_features s2 fv (matWrite fv r).1 (matWrite fv r).2) s) := by
  exact keys_foldl_aset_stable (fun r => online_key fv (matWrite fv r).1)
    (fun r => encodeFeatures (matWrite fv r).2) rows
    (rows.foldl
      (fun s2 r => aset s2 (online_key fv (matWrite fv r).1)
        (encodeFeatures (matWrite fv r).2)) s)
    (fun r hr => keys_foldl_aset_written
      (fun r2 => online_key fv (matWrite fv r2).1)
      (fun r2 => encodeFeatures (matWrite fv r2).2) rows s r hr)

/-- C8: with no intervening ingestion (the historical table is
unchanged), a second `materialize_feature_view` call reports the same
processed count as the first, and the set of populated cache keys
after the second call is the set after the first. -/
theorem materialize_idempotent (fv : FeatureView) (table : List PayRow) (limit : Nat)
    (st : Store) :
    (materialize_feature_view fv table limit st).1
      = (materialize_feature_view fv table limit
          (materialize_feature_view fv table limit st).2).1 ∧
    keysOf (materialize_feature_view fv table limit
        (materialize_feature_view fv table limit st).2).2
      = keysOf (materialize_feature_view fv table limit st).2 := by
  exact ⟨rfl, mat_fold_keys fv (latest_rows_by_entity fv table limit) st⟩

/-! ## C9 — cache keys come from str(entity value) -/

/-- C9: every row that materialization processes is cached under the
key derived from the string form of its entity value — reading back
with that string succeeds — and an integer entity `123` derives the
same cache key as the string `"123"`, so the two collide. -/
theorem materialize_key_is_str_of_entity (fv : FeatureView) (table : List PayRow)
    (limit : Nat) (st : Store) :
    (∀ r ∈ latest_rows_by_entity fv table limit,
      mem_get_entity_features (materialize_feature_view fv table limit st).2 fv
        (pyStr (colVal r fv.offline.entity_column)) ≠ none) ∧
    online_key fv (pyStr (PyVal.vInt 123)) = online_key fv (pyStr (PyVal.vStr "123")) := by
  constructor
  · intro r hr
    have hk : online_key fv (pyStr (colVal r fv.offline.entity_column))
        ∈ keysOf (materialize_feature_view fv table limit st).2 :=
      keys_foldl_aset_written (fun r2 => online_key fv (matWrite fv r2).1)
        (fun r2 => encodeFeatures (matWrite fv r2).2)
        (latest_rows_by_entity fv table limit) st r hr
    intro hno
    exact ((alook_eq_none_iff _ _).mp hno) hk
  · exact congrArg (online_key fv)
      (by decide : pyStr (PyVal.vInt 123) = pyStr (PyVal.vStr "123"))

/-- C9 witness: in the test scenario, entity 123's latest row is
readable back under the string key `"123"` after materialization. -/
theorem materialize_key_is_str_of_entity_witness :
    mem_get_entity_features (materialize_feature_view fvUser tableUser 10 []).2 fvUser
      (pyStr (colVal rowB fvUser.offline.entity_column)) ≠ none ∧
    online_key fvUser (pyStr (PyVal.vInt 123)) = online_key fvUser (pyStr (PyVal.vStr "123")) :=
  ⟨(materialize_key_is_str_of_entity fvUser tableUser 10 []).1 rowB (by decide),
   (materialize_key_is_str_of_entity fvUser tableUser 10 []).2⟩

/-! ## C10 — lookup returns the first declared view with the name -/

theorem findFeatureView_eq_none_iff (n : String) :
    ∀ l : List FeatureView, findFeatureView n l = none ↔ ∀ fv ∈ l, fv.name ≠ n := by
  intro l
  induction l with
  | nil => simp [findFeatureView]
  | cons fv rest ih =>
    by_cases h : fv.name = n
    · simp [findFeatureView, h]
    · simp [findFeatureView, h, ih]

theorem findFeatureView_first (n : String) :
    ∀ (l1 : List FeatureView) (v : FeatureView) (l2 : List FeatureView),
      (∀ u ∈ l1, u.name ≠ n) → v.name = n →
      findFeatureView n (l1 ++ v :: l2) = some v := by
  intro l1
  induction l1 with
  | nil =>
    intro v l2 _ hv
    simp [findFeatureView, hv]
  | cons u rest ih =>
    intro v l2 hall hv
    have hu : u.name ≠ n := hall u (List.mem_cons_self _ _)
    show (if u.name = n then some u else findFeatureView n (rest ++ v :: l2)) = some v
    rw [if_neg hu]
    exact ih v l2 (fun x hx => hall x (List.mem_cons_of_mem _ hx)) hv

/-- C10: `get_feature_view` returns `None` exactly when no view in
the snapshot carries the requested name, and whenever the snapshot
splits as `l1 ++ v :: l2` with no name-match in `l1` and `v` matching,
it returns `v` — the first declared view with that name, so a
duplicated name deterministically resolves to its first declaration. -/
theorem get_feature_view_first_declared (reg : Registry) (n : String) :
    (reg.get_feature_view n = none ↔ ∀ fv ∈ reg.feature_views, fv.name ≠ n) ∧
    (∀ l1 v l2, reg.feature_views = l1 ++ v :: l2 → (∀ u ∈ l1, u.name ≠ n) →
      v.name = n → reg.get_feature_view n = some v) := by
  constructor
  · exact findFeatureView_eq_none_iff n reg.feature_views
  · intro l1 v l2 heq hall hv
    show findFeatureView n reg.feature_views = some v
    rw [heq]
    exact findFeatureView_first n l1 v l2 hall hv

/-- A second view named `dup`, distinguishable from `fvDup`. -/
def fvDup2 : FeatureView :=
  { name := "dup"
    entity := ⟨"e", "int"⟩
    features := []
    offline := ⟨"t", "ts", "eid"⟩
    ttl_seconds := 5 }

/-- C10 witness: in a snapshot listing two views named `dup`, lookup
returns the first declared one, and an unknown name yields `None`. -/
theorem get_feature_view_first_declared_witness :
    (Registry.mk [fvDup, fvDup2]).get_feature_view "dup" = some fvDup ∧
    (Registry.mk [fvDup, fvDup2]).get_feature_view "nope" = none := by
  constructor
  · exact (get_feature_view_first_declared ⟨[fvDup, fvDup2]⟩ "dup").2
      [] fvDup [fvDup2] rfl (by simp) rfl
  · exact (get_feature_view_first_declared ⟨[fvDup, fvDup2]⟩ "nope").1.mpr (by decide)
